import Mathlib

/-!
Verification of the codemix baseline model (src/main.py and
src/src/models/baseline/baseline.py) against its specification.

The development shallowly embeds the pieces of the program the claims are
about:

* the named-parameter structure of the `BaseLine` module and the five
  optimizer parameter groups built by `configure_optimizers`
  (baseline.py lines 165-221), including the `"bias" in n` /
  `"LayerNorm.weight" in n` substring tests on parameter names;
* the linear-chain CRF used by both decoders (the `torchcrf.CRF` library
  the code delegates to, whose contract §4.1 of the spec restates):
  Viterbi `decode` and the masked log-space negative log-likelihood;
* the metric-call construction of `_compute_metrics` (lines 224-275);
* the `forward` composition (lines 85-100) with the transformer and the
  recurrent cell modelled from the spec (their code is outside this
  repository), and the training/validation steps (lines 102-162);
* the keyword arguments `main` (main.py lines 68-81) passes to
  `BaseLine.__init__` against the parameters the constructor accepts.

Machine floats are modelled by exact reals; tag ids of a task with
vocabulary size `k` are `Fin (k + 1)`, id `k` being the reserved
padding/ignore class.
-/

namespace Codemix

/-! ## Substring matching on parameter names

`configure_optimizers` selects parameters by Python substring tests
(`nd in n`).  Names are lists of characters; `isPre w s` is "`w` is a
prefix of `s`", `isSub w s` is "`w` occurs inside `s`" (Python `w in s`). -/

/-- Prefix test on character lists: `isPre w s = true` iff `w` is a prefix of `s`. -/
def isPre : List Char → List Char → Bool
  | [], _ => true
  | _ :: _, [] => false
  | a :: w, b :: s => a == b && isPre w s

/-- Substring test on character lists, the embedding of Python's `w in s`. -/
def isSub (w : List Char) : List Char → Bool
  | [] => isPre w []
  | s@(_ :: rest) => isPre w s || isSub w rest

/-- Separation test: no nonempty suffix of `p` is a prefix of `w`.  When it
holds (and `w` does not occur in `p`), an occurrence of `w` in `p ++ n`
cannot straddle the boundary, so it lies inside `n`. -/
def okSep (w : List Char) : List Char → Bool
  | [] => true
  | s@(_ :: rest) => !(isPre s w) && okSep w rest

/-! ## Named parameters of the BaseLine module

`BaseLine.__init__` (baseline.py lines 40-82) registers six submodules:
`base_model` (the pretrained transformer wrapper, whose parameter names are
unknown here and stay abstract), `bi_lstm`, `ner_net`, `ner_crf`,
`lid_net`, `lid_crf`.  `torch.nn` gives the LSTM, the Sequential heads and
the torchcrf CRF the relative parameter names listed below. -/

/-- The six submodules of `BaseLine` owning parameters. -/
inductive Mod where
  | baseModel | biLstm | nerNet | nerCrf | lidNet | lidCrf
  deriving DecidableEq

/-- A parameter tensor, identified by its owning submodule and its name
relative to that submodule. -/
structure Param where
  module : Mod
  rel : List Char
  deriving DecidableEq

/-- Relative parameter names of the one-layer bidirectional `nn.LSTM`. -/
def lstmNames : List (List Char) :=
  ["weight_ih_l0".toList, "weight_hh_l0".toList, "bias_ih_l0".toList, "bias_hh_l0".toList,
   "weight_ih_l0_reverse".toList, "weight_hh_l0_reverse".toList,
   "bias_ih_l0_reverse".toList, "bias_hh_l0_reverse".toList]

/-- Relative parameter names of each three-`Linear` `nn.Sequential` head
(indices 0, 2, 4; the LeakyReLU layers 1 and 3 have no parameters). -/
def headNames : List (List Char) :=
  ["0.weight".toList, "0.bias".toList, "2.weight".toList, "2.bias".toList,
   "4.weight".toList, "4.bias".toList]

/-- Relative parameter names of a `torchcrf.CRF` module: the start and end
transition vectors and the transition matrix. -/
def crfNames : List (List Char) :=
  ["start_transitions".toList, "end_transitions".toList, "transitions".toList]

/-- Relative parameter names of a submodule; the transformer's are abstract. -/
def namesOf (baseNames : List (List Char)) : Mod → List (List Char)
  | .baseModel => baseNames
  | .biLstm => lstmNames
  | .nerNet => headNames
  | .nerCrf => crfNames
  | .lidNet => headNames
  | .lidCrf => crfNames

/-- The attribute name under which each submodule is registered, with the
trailing dot PyTorch puts before the relative name in `self.named_parameters()`. -/
def modPre : Mod → List Char
  | .baseModel => "base_model.".toList
  | .biLstm => "bi_lstm.".toList
  | .nerNet => "ner_net.".toList
  | .nerCrf => "ner_crf.".toList
  | .lidNet => "lid_net.".toList
  | .lidCrf => "lid_crf.".toList

/-- The parameters of one submodule, as `submodule.named_parameters()` yields
them (names relative to the submodule). -/
def paramsOf (baseNames : List (List Char)) (m : Mod) : List Param :=
  (namesOf baseNames m).map (fun nm => ⟨m, nm⟩)

/-- All parameters of the model, as `self.named_parameters()` yields them,
in registration order. -/
def allParams (baseNames : List (List Char)) : List Param :=
  paramsOf baseNames .baseModel ++ paramsOf baseNames .biLstm ++
  paramsOf baseNames .nerNet ++ paramsOf baseNames .nerCrf ++
  paramsOf baseNames .lidNet ++ paramsOf baseNames .lidCrf

/-- The full dotted name of a parameter in `self.named_parameters()`. -/
def fullName (q : Param) : List Char := modPre q.module ++ q.rel

/-- The `no_decay` test of `configure_optimizers` (line 171):
`any(nd in n for nd in ["bias", "LayerNorm.weight"])`. -/
def noDecayB (s : List Char) : Bool :=
  isSub ("bias".toList) s || isSub ("LayerNorm.weight".toList) s

/-- The hyperparameters `configure_optimizers` reads. -/
structure Hparams where
  learning_rate : ℚ
  ner_learning_rate : ℚ
  lid_learning_rate : ℚ
  weight_decay : ℚ

/-- One optimizer parameter group: its parameter list and its optional
`lr` / `weight_decay` overrides (absent keys fall back to the optimizer-level
values, as in `torch.optim.AdamW`). -/
structure PGroup where
  ps : List Param
  lr : Option ℚ
  wd : Option ℚ

/-- The five parameter groups `configure_optimizers` builds
(baseline.py lines 173-213), in order: base_model, bi_lstm, ner_net and
lid_net parameters whose (submodule-relative) names do not match `no_decay`,
then every parameter of `self.named_parameters()` whose full name matches
`no_decay`, with `weight_decay: 0.0`. -/
def optimizerGroups (h : Hparams) (baseNames : List (List Char)) : List PGroup :=
  [⟨(paramsOf baseNames .baseModel).filter (fun q => !(noDecayB q.rel)), none, none⟩,
   ⟨(paramsOf baseNames .biLstm).filter (fun q => !(noDecayB q.rel)), none, none⟩,
   ⟨(paramsOf baseNames .nerNet).filter (fun q => !(noDecayB q.rel)),
     some h.ner_learning_rate, none⟩,
   ⟨(paramsOf baseNames .lidNet).filter (fun q => !(noDecayB q.rel)),
     some h.lid_learning_rate, none⟩,
   ⟨(allParams baseNames).filter (fun q => noDecayB (fullName q)), none, some 0⟩]

/-- Effective learning rate of a group under AdamW's fallback to the
optimizer-level `lr` (line 217). -/
def effLr (h : Hparams) (g : PGroup) : ℚ := g.lr.getD h.learning_rate

/-- Effective weight decay of a group under AdamW's fallback to the
optimizer-level `weight_decay` (line 218). -/
def effWd (h : Hparams) (g : PGroup) : ℚ := g.wd.getD h.weight_decay

/-! ## The linear-chain CRF: Viterbi decode

Modelled from the spec (§4.1) and the `torchcrf.CRF` contract the code
delegates to: `decode(emissions, mask)` runs the Viterbi recurrence over the
whole padded length, guarding score updates by the mask, then backtracks
through the first `mask.sum() - 1` recorded argmax tables, so the returned
path has one tag per mask-1 position.  When the code calls
`self.ner_crf.decode(ner_emissions)` with no mask (baseline.py lines
113 and 116, 147 and 150), torchcrf defaults the mask to all ones.
Ties in a max are broken toward the lowest tag id (spec §4.1). -/

/-- Transition parameters of one CRF decoder over `K` tags. -/
structure CRFParams (K : ℕ) (α : Type) where
  startTrans : Fin K → α
  endTrans : Fin K → α
  trans : Fin K → Fin K → α

/-- Lowest-index argmax of a score vector over the tag set. -/
def argmaxF {α : Type} [LinearOrder α] {k : ℕ} (f : Fin (k + 1) → α) : Fin (k + 1) :=
  (List.finRange (k + 1)).foldl (fun best i => if f best < f i then i else best)
    ⟨0, Nat.succ_pos k⟩

/-- Number of mask-1 positions among the rows (torchcrf's `mask.sum(0)`). -/
def maskOnes {β : Type} (rows : List (β × Bool)) : ℕ :=
  (rows.filter (fun x => x.2)).length

/-- The Viterbi forward pass over the rows after the first, threading the
best-score vector (updated only at mask-1 rows) and recording one argmax
table per row. -/
def viterbiScan {α : Type} [LinearOrder α] [Add α] {k : ℕ} (p : CRFParams (k + 1) α) :
    (Fin (k + 1) → α) → List ((Fin (k + 1) → α) × Bool) →
      (Fin (k + 1) → α) × List (Fin (k + 1) → Fin (k + 1))
  | score, [] => (score, [])
  | score, (e, m) :: rest =>
      let cand : Fin (k + 1) → Fin (k + 1) := fun t => argmaxF (fun j => score j + p.trans j t)
      let next : Fin (k + 1) → α := fun t => score (cand t) + p.trans (cand t) t + e t
      let r := viterbiScan p (if m then next else score) rest
      (r.1, cand :: r.2)

/-- Backtracking through the reversed argmax history, from the best final tag. -/
def backtrackAux {k : ℕ} : List (Fin (k + 1) → Fin (k + 1)) → Fin (k + 1) → List (Fin (k + 1))
  | [], _ => []
  | h :: hs, cur => h cur :: backtrackAux hs (h cur)

/-- Viterbi decode of one sequence: rows pair the per-position emission
vector with the mask bit.  Mirrors `torchcrf.CRF._viterbi_decode` including
the backtrack through `history[:mask.sum() - 1]`. -/
def decodeSeq {α : Type} [LinearOrder α] [Add α] {k : ℕ} (p : CRFParams (k + 1) α)
    (rows : List ((Fin (k + 1) → α) × Bool)) : List (Fin (k + 1)) :=
  match rows with
  | [] => []
  | (e, _) :: rest =>
      let init : Fin (k + 1) → α := fun t => p.startTrans t + e t
      let r := viterbiScan p init rest
      let last := argmaxF (fun t => r.1 t + p.endTrans t)
      (last :: backtrackAux ((r.2.take (maskOnes rows - 1)).reverse) last).reverse

/-- The decode call as the training/validation steps make it
(`self.ner_crf.decode(ner_emissions)`, lines 113/116/147/150): no mask is
passed, so torchcrf uses an all-ones mask over the full padded length. -/
def stepDecodePaths {α : Type} [LinearOrder α] [Add α] {k : ℕ} (p : CRFParams (k + 1) α)
    (emBatch : List (List (Fin (k + 1) → α))) : List (List (Fin (k + 1))) :=
  emBatch.map (fun es => decodeSeq p (es.map (fun e => (e, true))))

/-- Number of ones of an attention-mask row. -/
def onesCount (mask : List Bool) : ℕ := (mask.filter (fun b => b)).length

/-! ## Metric-call construction

`_compute_metrics` (baseline.py lines 224-275) flattens the predicted and
gold tag id tensors and calls torchmetrics `precision`, `recall` and
`f1_score` with macro averaging.  The torchmetrics computation itself is
external; what the code owns is the argument list of each call, which is
what `computeMetricArgs` builds.  Note both the `"ner"` and the `"lid"`
branch pass `num_classes=len(self.hparams.label2id) + 1`. -/

/-- Arguments of one torchmetrics precision/recall/f1 call. -/
structure MetricArgs where
  preds : List ℕ
  targets : List ℕ
  numClasses : ℕ
  ignoreIndex : ℕ
  deriving DecidableEq

/-- The named metric calls `_compute_metrics` makes: `labelCount` is
`len(label2id)`, `lidCount` is `len(lid2id)`. -/
def computeMetricArgs (labelCount lidCount : ℕ) (preds targets : List ℕ)
    (mode task : String) : List (String × MetricArgs) :=
  if task = "ner" then
    [("prec/" ++ mode ++ "-" ++ task, ⟨preds, targets, labelCount + 1, labelCount⟩),
     ("rec/" ++ mode ++ "-" ++ task, ⟨preds, targets, labelCount + 1, labelCount⟩),
     ("f1/" ++ mode ++ "-" ++ task, ⟨preds, targets, labelCount + 1, labelCount⟩)]
  else if task = "lid" then
    [("prec/" ++ mode ++ "-" ++ task, ⟨preds, targets, labelCount + 1, lidCount⟩),
     ("rec/" ++ mode ++ "-" ++ task, ⟨preds, targets, labelCount + 1, lidCount⟩),
     ("f1/" ++ mode ++ "-" ++ task, ⟨preds, targets, labelCount + 1, lidCount⟩)]
  else []

/-! ## Construction-time keyword arguments

`main` (main.py lines 68-81) constructs the model with twelve keyword
arguments; `BaseLine.__init__` (baseline.py lines 26-38) accepts ten named
parameters and no `**kwargs`.  A Python call with a keyword argument the
signature does not accept raises `TypeError` before the body runs. -/

/-- The named parameters `BaseLine.__init__` accepts (besides `self`). -/
def baseLineInitParams : List String :=
  ["model_name", "max_seq_len", "padding", "label2id", "lid2id",
   "learning_rate", "ner_learning_rate", "lid_learning_rate",
   "weight_decay", "dropout_rate"]

/-- The keyword arguments `main` passes to `BaseLine(...)`, in call order;
`freeze` is passed whatever value `args.freeze` has. -/
def mainBaseLineCallKwargs : List String :=
  ["model_name", "max_seq_len", "padding", "learning_rate",
   "ner_learning_rate", "lid_learning_rate", "warm_restart_epochs",
   "weight_decay", "ner_wd", "lid_wd", "dropout_rate", "freeze"]

/-- Python call semantics for keyword arguments: the call raises `TypeError`
naming the first keyword the signature does not accept; otherwise the
constructor runs. -/
def callBaseLine (kwargs : List String) : Except String Unit :=
  match kwargs.filter (fun kw => !(baseLineInitParams.contains kw)) with
  | [] => Except.ok ()
  | kw :: _ => Except.error kw

/-! ## The CRF negative log-likelihood over the reals

Modelled from the spec (§4.1) and the `torchcrf.CRF.forward` the code
delegates to (baseline.py lines 110-111, 144-145, called with
`attention_mask.bool()` and the default `reduction='sum'`).  The gold-path
score adds the start transition, each emission and transition guarded by
the mask bit, and the end transition at the tag indexed by
`mask.sum() - 1`; the log-partition runs the forward algorithm in
log-space, updating the score vector only at mask-1 rows.  torchcrf's
`torch.logsumexp` (max-stabilized in the library) is the mathematical
log-sum-exp here. -/

/-- Log-sum-exp of a score vector over the tag set. -/
noncomputable def lse {k : ℕ} (f : Fin (k + 1) → ℝ) : ℝ :=
  Real.log (∑ j, Real.exp (f j))

/-- The forward-algorithm pass over the rows after the first: at a mask-1
row the score vector becomes the log-sum-exp over the previous tag of
score + transition + emission; at a mask-0 row it is kept (torchcrf's
`torch.where(mask[i], next_score, score)`). -/
noncomputable def forwardScan {k : ℕ} (p : CRFParams (k + 1) ℝ) :
    (Fin (k + 1) → ℝ) → List ((Fin (k + 1) → ℝ) × Bool) → Fin (k + 1) → ℝ
  | v, [] => v
  | v, (e, m) :: rest =>
      forwardScan p (if m then (fun t => lse (fun j => v j + p.trans j t + e t)) else v) rest

/-- The partition function: the sum, over final tags, of the exponential of
the final forward score plus the end transition.  Its logarithm is what
`torchcrf._compute_normalizer` returns. -/
noncomputable def partitionZ {k : ℕ} (p : CRFParams (k + 1) ℝ)
    (rows : List ((Fin (k + 1) → ℝ) × Bool)) : ℝ :=
  match rows with
  | [] => 1
  | (e, _) :: rest =>
      ∑ t, Real.exp (forwardScan p (fun t0 => p.startTrans t0 + e t0) rest t + p.endTrans t)

/-- The log-partition (denominator) of one sequence. -/
noncomputable def logZ {k : ℕ} (p : CRFParams (k + 1) ℝ)
    (rows : List ((Fin (k + 1) → ℝ) × Bool)) : ℝ :=
  Real.log (partitionZ p rows)

/-- The mask-guarded transition-plus-emission sum of the gold path over the
rows after the first, threading the raw previous tag
(`torchcrf._compute_score`'s loop body, terms multiplied by `mask[i]`). -/
noncomputable def middleSum {k : ℕ} (p : CRFParams (k + 1) ℝ) :
    Fin (k + 1) → List ((Fin (k + 1) → ℝ) × Bool) → List (Fin (k + 1)) → ℝ
  | _, [], _ => 0
  | _, _ :: _, [] => 0
  | prev, (e, m) :: rs, t :: ts =>
      (if m then p.trans prev t + e t else 0) + middleSum p t rs ts

/-- The gold-path score (numerator) of one sequence: start transition and
first emission, the mask-guarded middle terms, and the end transition at
the tag of index `mask.sum() - 1`. -/
noncomputable def numerator {k : ℕ} (p : CRFParams (k + 1) ℝ)
    (rows : List ((Fin (k + 1) → ℝ) × Bool)) (tags : List (Fin (k + 1))) : ℝ :=
  match rows, tags with
  | (e, _) :: rrest, t0 :: trest =>
      p.startTrans t0 + e t0 + middleSum p t0 rrest trest +
        p.endTrans ((t0 :: trest).getD (maskOnes rows - 1) t0)
  | _, _ => 0

/-- The negative log-likelihood of one sequence: `log Z` minus the gold-path
score. -/
noncomputable def nllSeq {k : ℕ} (p : CRFParams (k + 1) ℝ)
    (rows : List ((Fin (k + 1) → ℝ) × Bool)) (tags : List (Fin (k + 1))) : ℝ :=
  logZ p rows - numerator p rows tags

/-- The gold path's probability mass: `exp(score) / Z`. -/
noncomputable def goldMass {k : ℕ} (p : CRFParams (k + 1) ℝ)
    (rows : List ((Fin (k + 1) → ℝ) × Bool)) (tags : List (Fin (k + 1))) : ℝ :=
  Real.exp (numerator p rows tags) / partitionZ p rows

/-- Direct sum, over all tag paths through the given emission rows starting
after tag `prev`, of the exponentials of their transition/emission/end
scores.  This is the brute-force reading of the partition function that the
forward algorithm computes. -/
noncomputable def tailSum {k : ℕ} (p : CRFParams (k + 1) ℝ) :
    Fin (k + 1) → List (Fin (k + 1) → ℝ) → ℝ
  | prev, [] => Real.exp (p.endTrans prev)
  | prev, e :: es => ∑ t, Real.exp (p.trans prev t + e t) * tailSum p t es

/-- Last element of a list with an explicit default for the empty list. -/
def lastD {β : Type} : β → List β → β
  | a, [] => a
  | _, b :: l => lastD b l

/-! ## The model and its forward pass

`BaseLine.forward` (baseline.py lines 85-100) runs the transformer, the
bidirectional LSTM and both heads.  The transformer (`BaseModel`,
src/modules/base_model.py, not in the repository) and the LSTM cell
equations (`torch.nn.LSTM`) are modelled from the spec (§4.3): an abstract
per-token embedding function and abstract recurrent cell update functions,
with the state threading, zero initial state and 256-wide hidden vectors
per direction explicit.  The heads (lines 57-63 and 71-77) are embedded
gate by gate: `Linear(512,128) → LeakyReLU → Linear(128,32) → LeakyReLU →
Linear(32, vocab+1)`. -/

/-- The `(h, c)` state of one LSTM direction, hidden size 256. -/
def LSTMState : Type := (Fin 256 → ℝ) × (Fin 256 → ℝ)

/-- The zero initial state `torch.nn.LSTM` uses when no state is passed in,
as in `self.bi_lstm(base_outs)`. -/
noncomputable def zeroLSTMState : LSTMState := (fun _ => 0, fun _ => 0)

/-- Index type of the 512-wide concatenated bidirectional feature vector:
forward direction coordinates on the left, backward on the right. -/
def FeatIdx : Type := Sum (Fin 256) (Fin 256)

instance : Fintype FeatIdx := by unfold FeatIdx; infer_instance

/-- Parameters (and spec-modelled external functions) of the `BaseLine`
module, over an abstract transformer embedding type `E`; `k` and `l` are
`len(label2id)` and `len(lid2id)`. -/
structure BaseLineModel (E : Type) (k l : ℕ) where
  baseModel : List ℕ → List Bool → List E
  cellF : LSTMState → E → LSTMState
  cellB : LSTMState → E → LSTMState
  nerW1 : Fin 128 → FeatIdx → ℝ
  nerB1 : Fin 128 → ℝ
  nerW2 : Fin 32 → Fin 128 → ℝ
  nerB2 : Fin 32 → ℝ
  nerW3 : Fin (k + 1) → Fin 32 → ℝ
  nerB3 : Fin (k + 1) → ℝ
  lidW1 : Fin 128 → FeatIdx → ℝ
  lidB1 : Fin 128 → ℝ
  lidW2 : Fin 32 → Fin 128 → ℝ
  lidB2 : Fin 32 → ℝ
  lidW3 : Fin (l + 1) → Fin 32 → ℝ
  lidB3 : Fin (l + 1) → ℝ
  nerCrf : CRFParams (k + 1) ℝ
  lidCrf : CRFParams (l + 1) ℝ

/-- An affine layer `x ↦ W x + b`. -/
noncomputable def linearMap {ι : Type} [Fintype ι] {m : ℕ}
    (w : Fin m → ι → ℝ) (b : Fin m → ℝ) (x : ι → ℝ) : Fin m → ℝ :=
  fun i => (∑ j, w i j * x j) + b i

/-- `torch.nn.LeakyReLU` with its default negative slope `0.01`. -/
noncomputable def leakyRelu (x : ℝ) : ℝ := if x < 0 then 0.01 * x else x

/-- The NER head (`self.ner_net`, lines 57-63). -/
noncomputable def nerHead {E : Type} {k l : ℕ} (m : BaseLineModel E k l)
    (x : FeatIdx → ℝ) : Fin (k + 1) → ℝ :=
  linearMap m.nerW3 m.nerB3 (fun i =>
    leakyRelu (linearMap m.nerW2 m.nerB2 (fun i2 =>
      leakyRelu (linearMap m.nerW1 m.nerB1 x i2)) i))

/-- The LID head (`self.lid_net`, lines 71-77). -/
noncomputable def lidHead {E : Type} {k l : ℕ} (m : BaseLineModel E k l)
    (x : FeatIdx → ℝ) : Fin (l + 1) → ℝ :=
  linearMap m.lidW3 m.lidB3 (fun i =>
    leakyRelu (linearMap m.lidW2 m.lidB2 (fun i2 =>
      leakyRelu (linearMap m.lidW1 m.lidB1 x i2)) i))

/-- One direction of the recurrent layer: fold the cell over the inputs from
an explicit initial state, collecting the hidden output at each step and
returning the final state (which `forward` discards, the `_` of line 92). -/
def lstmScan {E S H : Type} (cell : S → E → S) (out : S → H) : S → List E → List H × S
  | s, [] => ([], s)
  | s, x :: xs =>
      let s2 := cell s x
      let r := lstmScan cell out s2 xs
      (out s2 :: r.1, r.2)

/-- `BaseLine.forward` (lines 85-100): transformer embeddings, bidirectional
LSTM from the zero initial state in both directions, both heads applied per
position.  The returned value is the pair of emission sequences. -/
noncomputable def forward {E : Type} {k l : ℕ} (m : BaseLineModel E k l)
    (inputIds : List ℕ) (attentionMask : List Bool) :
    List (Fin (k + 1) → ℝ) × List (Fin (l + 1) → ℝ) :=
  let embs := m.baseModel inputIds attentionMask
  let fwd := lstmScan m.cellF Prod.fst zeroLSTMState embs
  let bwd := lstmScan m.cellB Prod.fst zeroLSTMState embs.reverse
  let feats := List.zipWith (fun hf hb => Sum.elim hf hb) fwd.1 bwd.1.reverse
  (feats.map (fun x => nerHead m x), feats.map (fun x => lidHead m x))

/-- The forward call as a method of the module: the Python body assigns no
attribute of `self`, so the module state it returns is the one it received. -/
noncomputable def forwardMethod {E : Type} {k l : ℕ} (m : BaseLineModel E k l)
    (inputIds : List ℕ) (attentionMask : List Bool) :
    (List (Fin (k + 1) → ℝ) × List (Fin (l + 1) → ℝ)) × BaseLineModel E k l :=
  (forward m inputIds attentionMask, m)

/-! ## Training and validation steps

`training_step` (lines 102-133) and `validation_step` (lines 136-162).
Both compute emissions via `forward`, per-task losses as the negated
torchcrf log-likelihood sum, decode both tasks without a mask, sum the
losses, and build the metric calls; they log under `train` and `val` split
names; `training_step` returns the loss, `validation_step` returns nothing.
The torchmetrics values are abstracted by `metricFn`, one function shared
by both steps (both call the same library functions). -/

/-- One batch as the data module supplies it. -/
structure Batch (k l : ℕ) where
  input_ids : List (List ℕ)
  attention_mask : List (List Bool)
  labels : List (List (Fin (k + 1)))
  lids : List (List (Fin (l + 1)))

/-- Everything a step computes: losses, decoded paths, the logged named
scalars, and the step's return value. -/
structure StepOut (k l : ℕ) where
  nerLoss : ℝ
  lidLoss : ℝ
  loss : ℝ
  nerPath : List (List (Fin (k + 1)))
  lidPath : List (List (Fin (l + 1)))
  logs : List (String × ℝ)
  ret : Option ℝ

/-- Concatenation of the per-sequence tag id lists, the `reshape(-1, 1)`
flattening of `_compute_metrics`. -/
def concatAll {β : Type} : List (List β) → List β
  | [] => []
  | x :: xs => x ++ concatAll xs

/-- Flatten a batch of tag paths to the bare tag ids. -/
def flattenTags {n : ℕ} (paths : List (List (Fin n))) : List ℕ :=
  concatAll (paths.map (fun pth => pth.map Fin.val))

/-- `training_step` (baseline.py lines 102-133). -/
noncomputable def trainingStep {E : Type} {k l : ℕ} (m : BaseLineModel E k l)
    (metricFn : MetricArgs → ℝ) (b : Batch k l) : StepOut k l :=
  let ems := List.zipWith (fun ids msk => forward m ids msk) b.input_ids b.attention_mask
  let nerEms := ems.map Prod.fst
  let lidEms := ems.map Prod.snd
  let nerLoss :=
    (List.zipWith (fun rows tags => nllSeq m.nerCrf rows tags)
      (List.zipWith (fun es msk => es.zip msk) nerEms b.attention_mask) b.labels).sum
  let lidLoss :=
    (List.zipWith (fun rows tags => nllSeq m.lidCrf rows tags)
      (List.zipWith (fun es msk => es.zip msk) lidEms b.attention_mask) b.lids).sum
  let nerPath := stepDecodePaths m.nerCrf nerEms
  let lidPath := stepDecodePaths m.lidCrf lidEms
  let loss := nerLoss + lidLoss
  let nerMetrics := computeMetricArgs k l (flattenTags nerPath) (flattenTags b.labels)
    "train" "ner"
  let lidMetrics := computeMetricArgs k l (flattenTags lidPath) (flattenTags b.lids)
    "train" "lid"
  { nerLoss := nerLoss, lidLoss := lidLoss, loss := loss,
    nerPath := nerPath, lidPath := lidPath,
    logs := ("loss/train", loss) :: ("loss-ner/train", nerLoss) ::
      ("loss-lid/train", lidLoss) ::
      ((nerMetrics ++ lidMetrics).map (fun kv => (kv.1, metricFn kv.2))),
    ret := some loss }

/-- `validation_step` (baseline.py lines 136-162). -/
noncomputable def validationStep {E : Type} {k l : ℕ} (m : BaseLineModel E k l)
    (metricFn : MetricArgs → ℝ) (b : Batch k l) : StepOut k l :=
  let ems := List.zipWith (fun ids msk => forward m ids msk) b.input_ids b.attention_mask
  let nerEms := ems.map Prod.fst
  let lidEms := ems.map Prod.snd
  let nerLoss :=
    (List.zipWith (fun rows tags => nllSeq m.nerCrf rows tags)
      (List.zipWith (fun es msk => es.zip msk) nerEms b.attention_mask) b.labels).sum
  let lidLoss :=
    (List.zipWith (fun rows tags => nllSeq m.lidCrf rows tags)
      (List.zipWith (fun es msk => es.zip msk) lidEms b.attention_mask) b.lids).sum
  let nerPath := stepDecodePaths m.nerCrf nerEms
  let lidPath := stepDecodePaths m.lidCrf lidEms
  let loss := nerLoss + lidLoss
  let nerMetrics := computeMetricArgs k l (flattenTags nerPath) (flattenTags b.labels)
    "val" "ner"
  let lidMetrics := computeMetricArgs k l (flattenTags lidPath) (flattenTags b.lids)
    "val" "lid"
  { nerLoss := nerLoss, lidLoss := lidLoss, loss := loss,
    nerPath := nerPath, lidPath := lidPath,
    logs := ("loss/val", loss) :: ("loss-ner/val", nerLoss) ::
      ("loss-lid/val", lidLoss) ::
      ((nerMetrics ++ lidMetrics).map (fun kv => (kv.1, metricFn kv.2))),
    ret := none }

/-- The nine metric names a step logs, as a function of the split name. -/
def splitKeys (s : String) : List String :=
  ["loss/" ++ s, "loss-ner/" ++ s, "loss-lid/" ++ s,
   "prec/" ++ s ++ "-ner", "rec/" ++ s ++ "-ner", "f1/" ++ s ++ "-ner",
   "prec/" ++ s ++ "-lid", "rec/" ++ s ++ "-lid", "f1/" ++ s ++ "-lid"]

/-! ## Concrete instances for counterexamples and witnesses -/

/-- A two-tag CRF (vocabulary size 1 plus the reserved pad id 1) with all
transition scores zero, over the integers. -/
def cexZeroCrf : CRFParams 2 ℤ := ⟨fun _ => 0, fun _ => 0, fun _ _ => 0⟩

/-- Emissions of a two-position sequence whose attention mask is `[1, 0]`. -/
def cexC1Em : List (Fin 2 → ℤ) := [fun _ => 0, fun _ => 0]

/-- A two-tag CRF whose only nonzero transition score strongly penalizes
moving from tag 0 to tag 1. -/
def cex6Crf : CRFParams 2 ℤ :=
  ⟨fun _ => 0, fun _ => 0, fun j t => if j = 0 ∧ t = 1 then -200 else 0⟩

/-- Emission row favouring tag 0 at the single real position. -/
def cex6E0 : Fin 2 → ℤ := fun t => if t = 0 then 1 else 0

/-- Garbage emission row of an appended padded (mask=0) position, strongly
favouring tag 1. -/
def cex6G : Fin 2 → ℤ := fun t => if t = 1 then 100 else 0

/-- Emission row at a real position giving the reserved pad id 1 the top
score. -/
def cex8Em : Fin 2 → ℤ := fun t => if t = 1 then 10 else 0

/-- Emission row for the C8 witness: the pad id strictly dominates. -/
def cexW8Em : Fin 2 → ℤ := fun t => if t = Fin.last 1 then 5 else 0

/-- Concrete hyperparameters for witnesses. -/
def hExample : Hparams := ⟨1, 2, 3, 4⟩

/-- A one-tag CRF over the reals with zero scores, for witnesses. -/
noncomputable def pW5 : CRFParams 1 ℝ := ⟨fun _ => 0, fun _ => 0, fun _ _ => 0⟩

/-- A zero emission row over one tag, for witnesses. -/
noncomputable def eW5 : Fin 1 → ℝ := fun _ => 0

/-- Concrete transformer parameter names for witnesses. -/
def bnExample : List (List Char) :=
  ["embeddings.LayerNorm.weight".toList, "encoder.bias".toList, "encoder.weight".toList]

/-! ## Helper lemmas -/

theorem length_backtrackAux {k : ℕ} (l : List (Fin (k + 1) → Fin (k + 1))) (c : Fin (k + 1)) :
    (backtrackAux l c).length = l.length := by
  induction l generalizing c with
  | nil => rfl
  | cons h hs ih => simp [backtrackAux, ih]

theorem length_viterbiHist {α : Type} [LinearOrder α] [Add α] {k : ℕ}
    (p : CRFParams (k + 1) α) :
    ∀ (rows : List ((Fin (k + 1) → α) × Bool)) (v : Fin (k + 1) → α),
      ((viterbiScan p v rows).2).length = rows.length := by
  intro rows
  induction rows with
  | nil => intro v; rfl
  | cons a rest ih =>
      intro v
      obtain ⟨e, m⟩ := a
      simp [viterbiScan, ih]

theorem maskOnes_allTrue {β : Type} (es : List β) :
    maskOnes (es.map (fun e => (e, true))) = es.length := by
  induction es with
  | nil => rfl
  | cons a t ih => simpa [maskOnes, List.filter] using ih

theorem decode_allTrue_length {α : Type} [LinearOrder α] [Add α] {k : ℕ}
    (p : CRFParams (k + 1) α) (es : List (Fin (k + 1) → α)) :
    (decodeSeq p (es.map (fun e => (e, true)))).length = es.length := by
  cases es with
  | nil => rfl
  | cons e0 rest =>
      have hm : maskOnes ((e0, true) :: rest.map (fun e => (e, true))) = rest.length + 1 := by
        simpa using maskOnes_allTrue (e0 :: rest)
      simp [decodeSeq, hm, length_backtrackAux, length_viterbiHist, List.length_take,
        List.length_reverse]

theorem foldl_argmax_keep {α : Type} [LinearOrder α] {k : ℕ} (f : Fin (k + 1) → α)
    (j : Fin (k + 1)) :
    ∀ l : List (Fin (k + 1)), (∀ i ∈ l, ¬ f j < f i) →
      l.foldl (fun best i => if f best < f i then i else best) j = j := by
  intro l
  induction l with
  | nil => intro _; rfl
  | cons a t ih =>
      intro h
      have ha : ¬ f j < f a := h a (List.mem_cons_self a t)
      simp only [List.foldl_cons, if_neg ha]
      exact ih (fun i hi => h i (List.mem_cons_of_mem a hi))

theorem foldl_argmax_dom {α : Type} [LinearOrder α] {k : ℕ} (f : Fin (k + 1) → α)
    (j : Fin (k + 1)) (hdom : ∀ i, i ≠ j → f i < f j) :
    ∀ (l : List (Fin (k + 1))) (acc : Fin (k + 1)), j ∈ l →
      l.foldl (fun best i => if f best < f i then i else best) acc = j := by
  intro l
  induction l with
  | nil => intro acc h; cases h
  | cons a t ih =>
      intro acc hmem
      by_cases haj : a = j
      · subst haj
        have hacc : (if f acc < f a then a else acc) = a := by
          by_cases hc : acc = a
          · subst hc; exact ite_self acc
          · exact if_pos (hdom acc hc)
        simp only [List.foldl_cons, hacc]
        exact foldl_argmax_keep f a t (fun i _ => by
          by_cases hij : i = a
          · subst hij; exact lt_irrefl (f i)
          · exact lt_asymm (hdom i hij))
      · have hj : j ∈ t := by
          rcases List.mem_cons.mp hmem with h1 | h1
          · exact absurd h1.symm haj
          · exact h1
        simp only [List.foldl_cons]
        exact ih _ hj

theorem argmaxF_dom {α : Type} [LinearOrder α] {k : ℕ} (f : Fin (k + 1) → α)
    (j : Fin (k + 1)) (hdom : ∀ i, i ≠ j → f i < f j) : argmaxF f = j :=
  foldl_argmax_dom f j hdom _ _ (List.mem_finRange j)

theorem isPre_take : ∀ (w : List Char) (m : ℕ), isPre (w.take m) w = true
  | [], _ => by simp [isPre]
  | _ :: _, 0 => rfl
  | a :: w, m + 1 => by simp [isPre, isPre_take w m]

theorem isPre_length_eq : ∀ u v : List Char, isPre u v = true → u.length = v.length → u = v
  | [], [], _, _ => rfl
  | [], _ :: _, _, hl => by simp at hl
  | _ :: _, [], hp, _ => by simp [isPre] at hp
  | a :: u, b :: v, hp, hl => by
      simp only [isPre, Bool.and_eq_true, beq_iff_eq] at hp
      obtain ⟨rfl, h2⟩ := hp
      simp only [List.length_cons, Nat.add_right_cancel_iff] at hl
      rw [isPre_length_eq u v h2 hl]

theorem isPre_append_split : ∀ (p w n : List Char), isPre w (p ++ n) = true →
    isPre (w.take p.length) p = true ∧ isPre (w.drop p.length) n = true
  | [], w, _, h => ⟨rfl, h⟩
  | _ :: _, [], _, _ => ⟨by simp [isPre], by simp [isPre]⟩
  | c :: p, a :: w, n, h => by
      simp only [List.cons_append, isPre, Bool.and_eq_true, beq_iff_eq] at h
      obtain ⟨rfl, h2⟩ := h
      obtain ⟨h3, h4⟩ := isPre_append_split p w n h2
      refine ⟨?_, ?_⟩
      · simp [isPre, h3]
      · simpa using h4

theorem isPre_isSub (w s : List Char) (h : isPre w s = true) : isSub w s = true := by
  cases s with
  | nil => exact h
  | cons b t => simp [isSub, h]

theorem isSub_append_elim : ∀ (p w n : List Char),
    isSub w p = false → okSep w p = true → isSub w (p ++ n) = true → isSub w n = true
  | [], _, _, _, _, h => h
  | c :: p, w, n, hw, hsep, h => by
      have hw2 : isPre w (c :: p) = false ∧ isSub w p = false := by
        simpa [isSub, Bool.or_eq_false_iff] using hw
      have hsep2 : isPre (c :: p) w = false ∧ okSep w p = true := by
        simpa [okSep, Bool.and_eq_true, Bool.not_eq_true'] using hsep
      have h2 : isPre w ((c :: p) ++ n) = true ∨ isSub w (p ++ n) = true := by
        simpa [isSub, Bool.or_eq_true] using h
      rcases h2 with hpre | hsub
      · obtain ⟨ht, hd⟩ := isPre_append_split (c :: p) w n hpre
        by_cases hlen : w.length ≤ p.length + 1
        · rw [List.take_of_length_le (by simpa using hlen)] at ht
          have hcontra := isPre_isSub w (c :: p) ht
          simp [hw] at hcontra
        · have hlt : (c :: p).length ≤ w.length := by simp; omega
          have hlen2 : (w.take (c :: p).length).length = (c :: p).length := by
            rw [List.length_take]; omega
          have heq : w.take (c :: p).length = c :: p := isPre_length_eq _ _ ht hlen2
          have hcp : isPre (c :: p) w = true := by
            have := isPre_take w (c :: p).length
            rwa [heq] at this
          rw [hsep2.1] at hcp
          exact absurd hcp (by simp)
      · exact isSub_append_elim p w n hw2.2 hsep2.2 hsub

theorem noDecay_append_elim (p n : List Char)
    (h1 : isSub ("bias".toList) p = false) (h2 : okSep ("bias".toList) p = true)
    (h3 : isSub ("LayerNorm.weight".toList) p = false)
    (h4 : okSep ("LayerNorm.weight".toList) p = true)
    (h : noDecayB (p ++ n) = true) : noDecayB n = true := by
  rcases (by simpa [noDecayB, Bool.or_eq_true] using h :
      isSub ("bias".toList) (p ++ n) = true ∨
        isSub ("LayerNorm.weight".toList) (p ++ n) = true) with hb | hl
  · have hres := isSub_append_elim p _ n h1 h2 hb
    unfold noDecayB
    rw [hres, Bool.true_or]
  · have hres := isSub_append_elim p _ n h3 h4 hl
    unfold noDecayB
    rw [hres, Bool.or_true]

/-- A `no_decay` match on a fully qualified parameter name (as group five
tests it) implies a `no_decay` match on the submodule-relative name (as
groups one to four test it): the match cannot straddle a `"<module>."`
boundary. -/
theorem noDecay_full_to_rel (q : Param) (h : noDecayB (fullName q) = true) :
    noDecayB q.rel = true := by
  obtain ⟨md, rel⟩ := q
  cases md with
  | baseModel =>
      exact noDecay_append_elim ("base_model.".toList) rel
        (by decide) (by decide) (by decide) (by decide) h
  | biLstm =>
      exact noDecay_append_elim ("bi_lstm.".toList) rel
        (by decide) (by decide) (by decide) (by decide) h
  | nerNet =>
      exact noDecay_append_elim ("ner_net.".toList) rel
        (by decide) (by decide) (by decide) (by decide) h
  | nerCrf =>
      exact noDecay_append_elim ("ner_crf.".toList) rel
        (by decide) (by decide) (by decide) (by decide) h
  | lidNet =>
      exact noDecay_append_elim ("lid_net.".toList) rel
        (by decide) (by decide) (by decide) (by decide) h
  | lidCrf =>
      exact noDecay_append_elim ("lid_crf.".toList) rel
        (by decide) (by decide) (by decide) (by decide) h

theorem sumExp_pos {k : ℕ} (f : Fin (k + 1) → ℝ) : 0 < ∑ j, Real.exp (f j) :=
  Finset.sum_pos (fun j _ => Real.exp_pos (f j)) Finset.univ_nonempty

theorem exp_lse {k : ℕ} (f : Fin (k + 1) → ℝ) :
    Real.exp (lse f) = ∑ j, Real.exp (f j) :=
  Real.exp_log (sumExp_pos f)

theorem tailSum_pos {k : ℕ} (p : CRFParams (k + 1) ℝ) :
    ∀ (es : List (Fin (k + 1) → ℝ)) (prev : Fin (k + 1)), 0 < tailSum p prev es := by
  intro es
  induction es with
  | nil => intro prev; exact Real.exp_pos _
  | cons e rest ih =>
      intro prev
      exact Finset.sum_pos (fun t _ => mul_pos (Real.exp_pos _) (ih t)) Finset.univ_nonempty

/-- Correctness of the forward algorithm: the sum of the exponentials of the
final forward scores (plus end transitions) over all-real rows equals the
weighted sum, over the tag at the already-processed position, of the direct
path sums. -/
theorem forwardScan_tailSum {k : ℕ} (p : CRFParams (k + 1) ℝ) :
    ∀ (es : List (Fin (k + 1) → ℝ)) (v : Fin (k + 1) → ℝ),
      (∑ t, Real.exp (forwardScan p v (es.map (fun e => (e, true))) t + p.endTrans t)) =
        ∑ j, Real.exp (v j) * tailSum p j es := by
  intro es
  induction es with
  | nil =>
      intro v
      simp [forwardScan, tailSum, Real.exp_add]
  | cons e rest ih =>
      intro v
      have hstep : forwardScan p v ((e :: rest).map (fun e => (e, true))) =
          forwardScan p (fun t => lse (fun j => v j + p.trans j t + e t))
            (rest.map (fun e => (e, true))) := by
        simp [forwardScan]
      rw [hstep, ih]
      have h1 : ∀ j : Fin (k + 1),
          Real.exp (lse (fun i => v i + p.trans i j + e j)) =
            ∑ i, Real.exp (v i + p.trans i j + e j) := fun j => exp_lse _
      simp only [h1, Finset.sum_mul]
      rw [Finset.sum_comm]
      simp only [tailSum, Finset.mul_sum]
      refine Finset.sum_congr rfl (fun i _ => Finset.sum_congr rfl (fun j _ => ?_))
      simp only [Real.exp_add]
      ring

/-- Any single gold chain contributes at most the full path sum. -/
theorem exp_middle_le_tailSum {k : ℕ} (p : CRFParams (k + 1) ℝ) :
    ∀ (es : List (Fin (k + 1) → ℝ)) (ts : List (Fin (k + 1))) (prev : Fin (k + 1)),
      ts.length = es.length →
      Real.exp (middleSum p prev (es.map (fun e => (e, true))) ts +
          p.endTrans (lastD prev ts)) ≤
        tailSum p prev es := by
  intro es
  induction es with
  | nil =>
      intro ts prev hlen
      cases ts with
      | nil => simp [middleSum, tailSum, lastD]
      | cons t ts2 => simp at hlen
  | cons e rest ih =>
      intro ts prev hlen
      cases ts with
      | nil => simp at hlen
      | cons t ts2 =>
          have hlen2 : ts2.length = rest.length := by simpa using hlen
          have hmid : middleSum p prev ((e :: rest).map (fun e => (e, true))) (t :: ts2) =
              p.trans prev t + e t + middleSum p t (rest.map (fun e => (e, true))) ts2 := by
            simp [middleSum]
          have hlast : lastD prev (t :: ts2) = lastD t ts2 := rfl
          rw [hmid, hlast]
          calc Real.exp (p.trans prev t + e t +
                middleSum p t (rest.map (fun e => (e, true))) ts2 +
                p.endTrans (lastD t ts2))
              = Real.exp (p.trans prev t + e t) *
                  Real.exp (middleSum p t (rest.map (fun e => (e, true))) ts2 +
                    p.endTrans (lastD t ts2)) := by
                rw [← Real.exp_add]; congr 1; ring
            _ ≤ Real.exp (p.trans prev t + e t) * tailSum p t rest :=
                mul_le_mul_of_nonneg_left (ih ts2 t hlen2) (Real.exp_pos _).le
            _ ≤ ∑ t2, Real.exp (p.trans prev t2 + e t2) * tailSum p t2 rest :=
                @Finset.single_le_sum (Fin (k + 1)) ℝ _
                  (fun t2 => Real.exp (p.trans prev t2 + e t2) * tailSum p t2 rest)
                  Finset.univ
                  (fun t2 _ => mul_nonneg (Real.exp_pos _).le (tailSum_pos p rest t2).le)
                  t (Finset.mem_univ t)
            _ = tailSum p prev (e :: rest) := by simp [tailSum]

theorem getD_length_lastD {β : Type} :
    ∀ (l : List β) (a d : β), (a :: l).getD l.length d = lastD a l
  | [], _, _ => rfl
  | b :: l, a, d => by simpa [List.getD_cons_succ] using getD_length_lastD l b d

theorem getD_take {β : Type} :
    ∀ (l : List β) (m i : ℕ) (d : β), i < m → (l.take m).getD i d = l.getD i d
  | [], _, _, _, _ => by simp
  | _ :: _, 0, _, _, h => absurd h (by omega)
  | a :: l, m + 1, 0, d, _ => by simp
  | a :: l, m + 1, i + 1, d, h => by
      simpa [List.getD_cons_succ] using getD_take l m i d (by omega)

theorem forwardScan_falses {k : ℕ} (p : CRFParams (k + 1) ℝ) :
    ∀ (pad : List (Fin (k + 1) → ℝ)) (v : Fin (k + 1) → ℝ),
      forwardScan p v (pad.map (fun e => (e, false))) = v
  | [], _ => rfl
  | e :: pad, v => by simp [forwardScan, forwardScan_falses p pad v]

theorem forwardScan_append_false {k : ℕ} (p : CRFParams (k + 1) ℝ) :
    ∀ (rows : List ((Fin (k + 1) → ℝ) × Bool)) (pad : List (Fin (k + 1) → ℝ))
      (v : Fin (k + 1) → ℝ),
      forwardScan p v (rows ++ pad.map (fun e => (e, false))) = forwardScan p v rows := by
  intro rows
  induction rows with
  | nil => intro pad v; simpa using forwardScan_falses p pad v
  | cons a rows ih =>
      intro pad v
      obtain ⟨e, m⟩ := a
      simp only [List.cons_append, forwardScan]
      exact ih pad _

theorem partitionZ_append_false {k : ℕ} (p : CRFParams (k + 1) ℝ)
    (e0 : Fin (k + 1) → ℝ) (rtail pad : List (Fin (k + 1) → ℝ)) :
    partitionZ p (((e0 :: rtail).map (fun e => (e, true))) ++ pad.map (fun e => (e, false))) =
      partitionZ p ((e0 :: rtail).map (fun e => (e, true))) := by
  simp only [List.map_cons, List.cons_append, partitionZ]
  rw [forwardScan_append_false]

theorem middleSum_falses {k : ℕ} (p : CRFParams (k + 1) ℝ) :
    ∀ (pad : List (Fin (k + 1) → ℝ)) (ts : List (Fin (k + 1))) (prev : Fin (k + 1)),
      middleSum p prev (pad.map (fun e => (e, false))) ts = 0
  | [], _, _ => rfl
  | _ :: _, [], _ => rfl
  | e :: pad, t :: ts, prev => by simp [middleSum, middleSum_falses p pad ts t]

theorem middleSum_append_false {k : ℕ} (p : CRFParams (k + 1) ℝ) :
    ∀ (xs : List ((Fin (k + 1) → ℝ) × Bool)) (pad : List (Fin (k + 1) → ℝ))
      (ts : List (Fin (k + 1))) (prev : Fin (k + 1)),
      middleSum p prev (xs ++ pad.map (fun e => (e, false))) ts = middleSum p prev xs ts := by
  intro xs
  induction xs with
  | nil =>
      intro pad ts prev
      rw [List.nil_append]
      exact middleSum_falses p pad ts prev
  | cons a xs ih =>
      intro pad ts prev
      obtain ⟨e, m⟩ := a
      cases ts with
      | nil => simp [middleSum]
      | cons t ts2 => simp [middleSum, ih]

theorem middleSum_take {k : ℕ} (p : CRFParams (k + 1) ℝ) :
    ∀ (xs : List ((Fin (k + 1) → ℝ) × Bool)) (ts : List (Fin (k + 1))) (prev : Fin (k + 1)),
      middleSum p prev xs (ts.take xs.length) = middleSum p prev xs ts
  | [], _, _ => rfl
  | _ :: _, [], _ => rfl
  | x :: xs, t :: ts, prev => by
      obtain ⟨e, m⟩ := x
      simp [middleSum, middleSum_take p xs ts t]

theorem maskOnes_append {β : Type} (xs ys : List (β × Bool)) :
    maskOnes (xs ++ ys) = maskOnes xs + maskOnes ys := by
  simp [maskOnes, List.filter_append]

theorem maskOnes_falses {β : Type} (pad : List β) :
    maskOnes (pad.map (fun e => (e, false))) = 0 := by
  induction pad with
  | nil => rfl
  | cons e pad ih => simp [maskOnes, List.filter] at ih ⊢

/-- Stripping the padded (mask=0) tail: the numerator over a prefix-masked
sequence equals the numerator over the real rows with the tags truncated to
the real length. -/
theorem numerator_strip {k : ℕ} (p : CRFParams (k + 1) ℝ)
    (e0 : Fin (k + 1) → ℝ) (rtail pad : List (Fin (k + 1) → ℝ))
    (t0 : Fin (k + 1)) (ttail : List (Fin (k + 1))) :
    numerator p (((e0 :: rtail).map (fun e => (e, true))) ++ pad.map (fun e => (e, false)))
        (t0 :: ttail) =
      numerator p ((e0 :: rtail).map (fun e => (e, true))) (t0 :: ttail.take rtail.length) := by
  have honesL : maskOnes
      (((e0 :: rtail).map (fun e => (e, true))) ++ pad.map (fun e => (e, false))) =
      rtail.length + 1 := by
    rw [maskOnes_append, maskOnes_allTrue, maskOnes_falses]
    simp
  have honesR : maskOnes ((e0 :: rtail).map (fun e => (e, true))) = rtail.length + 1 := by
    rw [maskOnes_allTrue]; simp
  simp only [List.map_cons, List.cons_append, numerator] at honesL honesR ⊢
  rw [honesL, honesR, middleSum_append_false]
  have hmid : middleSum p t0 (rtail.map (fun e => (e, true))) ttail =
      middleSum p t0 (rtail.map (fun e => (e, true))) (ttail.take rtail.length) := by
    rw [← middleSum_take]
    simp [List.length_map]
  rw [hmid]
  congr 1
  rcases Nat.eq_zero_or_pos rtail.length with hz | hpos
  · simp [hz]
  · have hidx : rtail.length + 1 - 1 = (rtail.length - 1) + 1 := by omega
    rw [hidx]
    simp only [List.getD_cons_succ]
    rw [getD_take ttail rtail.length (rtail.length - 1) t0 (by omega)]

theorem partitionZ_pos {k : ℕ} (p : CRFParams (k + 1) ℝ)
    (rows : List ((Fin (k + 1) → ℝ) × Bool)) : 0 < partitionZ p rows := by
  cases rows with
  | nil => simp [partitionZ]
  | cons a rest =>
      obtain ⟨e, m⟩ := a
      simpa [partitionZ] using sumExp_pos
        (fun t => forwardScan p (fun t0 => p.startTrans t0 + e t0) rest t + p.endTrans t)

/-- Over all-real rows, the exponential of the gold-path score is at most
the partition function. -/
theorem exp_numerator_le_partition_true {k : ℕ} (p : CRFParams (k + 1) ℝ)
    (e0 : Fin (k + 1) → ℝ) (rtail : List (Fin (k + 1) → ℝ))
    (t0 : Fin (k + 1)) (ts : List (Fin (k + 1))) (hlen : ts.length = rtail.length) :
    Real.exp (numerator p ((e0 :: rtail).map (fun e => (e, true))) (t0 :: ts)) ≤
      partitionZ p ((e0 :: rtail).map (fun e => (e, true))) := by
  have hones : maskOnes ((e0, true) :: rtail.map (fun e => (e, true))) = rtail.length + 1 := by
    simpa using maskOnes_allTrue (e0 :: rtail)
  have hnum : numerator p ((e0 :: rtail).map (fun e => (e, true))) (t0 :: ts) =
      p.startTrans t0 + e0 t0 + middleSum p t0 (rtail.map (fun e => (e, true))) ts +
        p.endTrans (lastD t0 ts) := by
    simp only [List.map_cons, numerator]
    rw [hones]
    rw [show rtail.length + 1 - 1 = ts.length by omega]
    rw [getD_length_lastD]
  have hpart : partitionZ p ((e0 :: rtail).map (fun e => (e, true))) =
      ∑ j, Real.exp (p.startTrans j + e0 j) * tailSum p j rtail := by
    simp only [List.map_cons, partitionZ]
    exact forwardScan_tailSum p rtail (fun t => p.startTrans t + e0 t)
  rw [hnum, hpart]
  calc Real.exp (p.startTrans t0 + e0 t0 +
        middleSum p t0 (rtail.map (fun e => (e, true))) ts + p.endTrans (lastD t0 ts))
      = Real.exp (p.startTrans t0 + e0 t0) *
          Real.exp (middleSum p t0 (rtail.map (fun e => (e, true))) ts +
            p.endTrans (lastD t0 ts)) := by
        rw [← Real.exp_add]; congr 1; ring
    _ ≤ Real.exp (p.startTrans t0 + e0 t0) * tailSum p t0 rtail :=
        mul_le_mul_of_nonneg_left (exp_middle_le_tailSum p rtail ts t0 hlen)
          (Real.exp_pos _).le
    _ ≤ ∑ j, Real.exp (p.startTrans j + e0 j) * tailSum p j rtail :=
        @Finset.single_le_sum (Fin (k + 1)) ℝ _
          (fun j => Real.exp (p.startTrans j + e0 j) * tailSum p j rtail)
          Finset.univ
          (fun j _ => mul_nonneg (Real.exp_pos _).le (tailSum_pos p rtail j).le)
          t0 (Finset.mem_univ t0)

theorem module_of_mem_paramsOf {bn : List (List Char)} {m : Mod} {q : Param}
    (h : q ∈ paramsOf bn m) : q.module = m := by
  simp only [paramsOf, List.mem_map] at h
  obtain ⟨nm, _, rfl⟩ := h
  rfl

theorem rel_of_mem_paramsOf {bn : List (List Char)} {m : Mod} {q : Param}
    (h : q ∈ paramsOf bn m) : q.rel ∈ namesOf bn m := by
  simp only [paramsOf, List.mem_map] at h
  obtain ⟨nm, hnm, rfl⟩ := h
  exact hnm

theorem disjoint_filters_of_ne_module {bn : List (List Char)} {m1 m2 : Mod}
    (hne : m1 ≠ m2) (p1 p2 : Param → Bool) :
    ∀ q : Param, q ∈ (paramsOf bn m1).filter p1 → q ∈ (paramsOf bn m2).filter p2 → False :=
  fun q h1 h2 => hne (by
    rw [← module_of_mem_paramsOf (List.mem_filter.mp h1).1,
      ← module_of_mem_paramsOf (List.mem_filter.mp h2).1])

theorem disjoint_filter_noDecay {bn : List (List Char)} {m : Mod} :
    ∀ q : Param, q ∈ (paramsOf bn m).filter (fun q => !(noDecayB q.rel)) →
      q ∈ (allParams bn).filter (fun q => noDecayB (fullName q)) → False := by
  intro q h1 h2
  have ha : noDecayB q.rel = false := by
    simpa [Bool.not_eq_true'] using (List.mem_filter.mp h1).2
  have hb : noDecayB q.rel = true :=
    noDecay_full_to_rel q (by simpa using (List.mem_filter.mp h2).2)
  rw [ha] at hb
  exact absurd hb (by simp)

/-! ## Claim theorems -/

/-- C1 (corrected), counterexample: a batch of one sequence with two token
positions and attention mask `[1, 0]` (one real token) still gets a decoded
path of length 2 from the step's decode call, because lines 113/116/147/150
call `decode` without the mask: the claimed "one tag per mask-1 position"
fails. -/
theorem c1_counterexample :
    ((stepDecodePaths cexZeroCrf [cexC1Em]).map List.length = [2]) ∧
    onesCount [true, false] = 1 ∧ (2 : ℕ) ≠ 1 := by decide

/-- C1 (corrected), amended claim: the decoded path produced during a
training or validation step has exactly one tag per token position of the
padded length (padded positions included), for every sequence of the batch,
because `decode` is called without the attention mask and torchcrf then
uses an all-ones mask. -/
theorem c1_amended {α : Type} [LinearOrder α] [Add α] {k : ℕ} (p : CRFParams (k + 1) α)
    (emBatch : List (List (Fin (k + 1) → α))) :
    (stepDecodePaths p emBatch).map List.length = emBatch.map List.length := by
  induction emBatch with
  | nil => rfl
  | cons es rest ih =>
      simp [stepDecodePaths, decode_allTrue_length]

/-- C2 (code bug): the CRF transition parameters of both decoders
(`start_transitions`, `end_transitions`, `transitions` of `ner_crf` and
`lid_crf`) are parameters of the model but belong to none of the five
groups `configure_optimizers` builds: groups one to four draw only from
`base_model`, `bi_lstm`, `ner_net` and `lid_net`, and the fifth keeps only
names matching `no_decay`, which no CRF parameter name does.  AdamW
therefore never updates them. -/
theorem c2_crf_uncovered (h : Hparams) (bn : List (List Char)) :
    ∀ q ∈ paramsOf bn .nerCrf ++ paramsOf bn .lidCrf,
      q ∈ allParams bn ∧ ∀ g ∈ optimizerGroups h bn, q ∉ g.ps := by
  intro q hq
  have hmod : q.module = Mod.nerCrf ∨ q.module = Mod.lidCrf := by
    rcases List.mem_append.mp hq with h1 | h1
    · exact Or.inl (module_of_mem_paramsOf h1)
    · exact Or.inr (module_of_mem_paramsOf h1)
  have hrel : q.rel ∈ crfNames := by
    rcases List.mem_append.mp hq with h1 | h1
    · exact rel_of_mem_paramsOf h1
    · exact rel_of_mem_paramsOf h1
  constructor
  · simp only [allParams, List.mem_append]
    rcases List.mem_append.mp hq with h1 | h1
    · tauto
    · tauto
  · intro g hg hqg
    simp only [optimizerGroups, List.mem_cons, List.not_mem_nil, or_false] at hg
    rcases hg with rfl | rfl | rfl | rfl | rfl
    · have hb := module_of_mem_paramsOf (List.mem_filter.mp hqg).1
      rcases hmod with hm | hm <;> rw [hm] at hb <;> exact absurd hb (by decide)
    · have hb := module_of_mem_paramsOf (List.mem_filter.mp hqg).1
      rcases hmod with hm | hm <;> rw [hm] at hb <;> exact absurd hb (by decide)
    · have hb := module_of_mem_paramsOf (List.mem_filter.mp hqg).1
      rcases hmod with hm | hm <;> rw [hm] at hb <;> exact absurd hb (by decide)
    · have hb := module_of_mem_paramsOf (List.mem_filter.mp hqg).1
      rcases hmod with hm | hm <;> rw [hm] at hb <;> exact absurd hb (by decide)
    · have hnd := noDecay_full_to_rel q (by simpa using (List.mem_filter.mp hqg).2)
      simp only [crfNames, List.mem_cons, List.not_mem_nil, or_false] at hrel
      rcases hrel with hr | hr | hr <;> rw [hr] at hnd <;> exact absurd hnd (by decide)

/-- C2 witness: the NER transition matrix at concrete hyperparameters and an
empty transformer name list. -/
theorem c2_crf_uncovered_witness :
    (⟨Mod.nerCrf, "transitions".toList⟩ : Param) ∈ allParams [] ∧
    ∀ g ∈ optimizerGroups hExample [],
      (⟨Mod.nerCrf, "transitions".toList⟩ : Param) ∉ g.ps :=
  c2_crf_uncovered hExample [] ⟨Mod.nerCrf, "transitions".toList⟩ (by decide)

/-- C3 (code bug): with `len(label2id) = 3` and `len(lid2id) = 5`, the LID
branch of `_compute_metrics` builds all three metric calls with
`num_classes = len(label2id) + 1 = 4` (lines 255-273 reuse `label2id`),
not `len(lid2id) + 1 = 6` as the claim states, while the ignore index is
the LID pad id 5. -/
theorem c3_lid_num_classes :
    ((computeMetricArgs 3 5 ([] : List ℕ) ([] : List ℕ) "val" "lid").map
        (fun kv => kv.2.numClasses) = [4, 4, 4]) ∧
    ((computeMetricArgs 3 5 ([] : List ℕ) ([] : List ℕ) "val" "lid").map
        (fun kv => kv.2.ignoreIndex) = [5, 5, 5]) ∧
    (4 : ℕ) ≠ 5 + 1 := by decide

/-- C4 (code bug): `main` passes the keyword arguments
`warm_restart_epochs`, `ner_wd`, `lid_wd` and `freeze` to `BaseLine(...)`,
none of which `BaseLine.__init__` accepts, so the construction raises
`TypeError` for every configuration of the freeze flag: no configuration
constructs the model at all. -/
theorem c4_construction_fails :
    callBaseLine mainBaseLineCallKwargs = Except.error ("warm_restart_epochs") ∧
    "freeze" ∈ mainBaseLineCallKwargs ∧ ¬("freeze" ∈ baseLineInitParams) :=
  ⟨rfl, by decide, by decide⟩

/-- C5 (confirmed): for every emissions tensor (decomposed as a nonempty
all-real prefix `e0 :: rtail` followed by padded rows `pad`, the
contiguous-prefix mask of the data model), and every gold tag sequence of
matching length with valid tag ids, the per-task negative log-likelihood
`log Z - score(gold)` computed by the step's loss call is non-negative, and
is zero exactly when the gold path carries all probability mass
(`exp(score(gold)) / Z = 1`). -/
theorem c5_nll_nonneg (k : ℕ) (p : CRFParams (k + 1) ℝ)
    (e0 : Fin (k + 1) → ℝ) (rtail pad : List (Fin (k + 1) → ℝ))
    (t0 : Fin (k + 1)) (ttail : List (Fin (k + 1)))
    (hlen : ttail.length = rtail.length + pad.length) :
    0 ≤ nllSeq p (((e0 :: rtail).map (fun e => (e, true))) ++ pad.map (fun e => (e, false)))
        (t0 :: ttail) ∧
      (nllSeq p (((e0 :: rtail).map (fun e => (e, true))) ++ pad.map (fun e => (e, false)))
          (t0 :: ttail) = 0 ↔
        goldMass p (((e0 :: rtail).map (fun e => (e, true))) ++ pad.map (fun e => (e, false)))
          (t0 :: ttail) = 1) := by
  set rows := ((e0 :: rtail).map (fun e => (e, true))) ++ pad.map (fun e => (e, false))
    with hrows
  have hsN : numerator p rows (t0 :: ttail) =
      numerator p ((e0 :: rtail).map (fun e => (e, true))) (t0 :: ttail.take rtail.length) :=
    numerator_strip p e0 rtail pad t0 ttail
  have hsZ : partitionZ p rows = partitionZ p ((e0 :: rtail).map (fun e => (e, true))) :=
    partitionZ_append_false p e0 rtail pad
  have hineq : Real.exp (numerator p rows (t0 :: ttail)) ≤ partitionZ p rows := by
    rw [hsN, hsZ]
    exact exp_numerator_le_partition_true p e0 rtail t0 (ttail.take rtail.length)
      (by rw [List.length_take]; omega)
  have hpos : 0 < partitionZ p rows := partitionZ_pos p rows
  have hle : numerator p rows (t0 :: ttail) ≤ logZ p rows := by
    unfold logZ
    exact (Real.le_log_iff_exp_le hpos).mpr hineq
  constructor
  · unfold nllSeq
    linarith
  · unfold nllSeq goldMass
    constructor
    · intro h0
      have hlogeq : Real.log (partitionZ p rows) = numerator p rows (t0 :: ttail) := by
        unfold logZ at h0
        linarith
      have hZeq : Real.exp (numerator p rows (t0 :: ttail)) = partitionZ p rows := by
        rw [← hlogeq, Real.exp_log hpos]
      rw [hZeq]
      exact div_self hpos.ne'
    · intro h1
      have hZeq : Real.exp (numerator p rows (t0 :: ttail)) = partitionZ p rows :=
        (div_eq_one_iff_eq hpos.ne').mp h1
      have hlogeq : numerator p rows (t0 :: ttail) = Real.log (partitionZ p rows) := by
        rw [← hZeq, Real.log_exp]
      unfold logZ
      linarith

/-- C5 witness: the guarantee at a concrete one-tag, one-position input. -/
theorem c5_nll_nonneg_witness :
    0 ≤ nllSeq pW5 [(eW5, true)] [0] ∧
      (nllSeq pW5 [(eW5, true)] [0] = 0 ↔ goldMass pW5 [(eW5, true)] [0] = 1) :=
  c5_nll_nonneg 0 pW5 eW5 [] [] 0 [] rfl

/-- C6 (corrected), counterexample: appending one padded (mask=0) position
with garbage emissions to a single-real-token sequence changes the decoded
tag at the real position 0 from tag 0 to tag 1, because the step's decode
call ignores the attention mask. -/
theorem c6_counterexample :
    stepDecodePaths cex6Crf [[cex6E0]] = [[(0 : Fin 2)]] ∧
    stepDecodePaths cex6Crf [[cex6E0, cex6G]] = [[(1 : Fin 2), 1]] ∧
    ((stepDecodePaths cex6Crf [[cex6E0, cex6G]]).headD []).headD 0 ≠
      ((stepDecodePaths cex6Crf [[cex6E0]]).headD []).headD 0 := by decide

/-- C6 (corrected), amended claim: extending a sequence (all-real prefix
`e0 :: rtail`, padded rows `pad`) with extra padded positions `extra`
carrying arbitrary emissions and ignore-id labels leaves the per-task
negative log-likelihood unchanged; the decoded tags at real positions,
however, may change, because the step's decode call ignores the mask (see
the counterexample). -/
theorem c6_amended_nll (k : ℕ) (p : CRFParams (k + 1) ℝ)
    (e0 : Fin (k + 1) → ℝ) (rtail pad extra : List (Fin (k + 1) → ℝ))
    (t0 : Fin (k + 1)) (ttail : List (Fin (k + 1)))
    (hlen : rtail.length ≤ ttail.length) :
    nllSeq p (((e0 :: rtail).map (fun e => (e, true))) ++
        (pad ++ extra).map (fun e => (e, false)))
        (t0 :: (ttail ++ List.replicate extra.length (Fin.last k))) =
      nllSeq p (((e0 :: rtail).map (fun e => (e, true))) ++ pad.map (fun e => (e, false)))
        (t0 :: ttail) := by
  unfold nllSeq logZ
  rw [partitionZ_append_false, partitionZ_append_false, numerator_strip, numerator_strip,
    List.take_append_of_le_length hlen]

/-- C6 witness: the amended claim at a concrete input extended by one
padded position. -/
theorem c6_amended_nll_witness :
    nllSeq pW5 [(eW5, true), (eW5, false)] [0, Fin.last 0] =
      nllSeq pW5 [(eW5, true)] [0] :=
  c6_amended_nll 0 pW5 eW5 [] [] [eW5] 0 [] (Nat.le_refl 0)

/-- C7 (confirmed): every parameter whose name matches the bias /
normalization-scale patterns lands in a group whose effective weight decay
is exactly 0; the non-matching parameters of the NER and LID heads land in
groups whose effective learning rates are the task-specific ones; and the
five groups are pairwise disjoint. -/
theorem c7_param_groups (h : Hparams) (bn : List (List Char)) :
    (∀ q ∈ allParams bn, noDecayB (fullName q) = true →
      ∃ g ∈ optimizerGroups h bn, q ∈ g.ps ∧ effWd h g = 0) ∧
    (∀ q ∈ paramsOf bn .nerNet, noDecayB q.rel = false →
      ∃ g ∈ optimizerGroups h bn, q ∈ g.ps ∧ effLr h g = h.ner_learning_rate) ∧
    (∀ q ∈ paramsOf bn .lidNet, noDecayB q.rel = false →
      ∃ g ∈ optimizerGroups h bn, q ∈ g.ps ∧ effLr h g = h.lid_learning_rate) ∧
    List.Pairwise (fun g1 g2 => ∀ q, q ∈ g1.ps → q ∉ g2.ps) (optimizerGroups h bn) := by
  refine ⟨?_, ?_, ?_, ?_⟩
  · intro q hq hnd
    refine ⟨⟨(allParams bn).filter (fun q => noDecayB (fullName q)), none, some 0⟩,
      ?_, ?_, rfl⟩
    · exact List.mem_cons_of_mem _ (List.mem_cons_of_mem _ (List.mem_cons_of_mem _
        (List.mem_cons_of_mem _ (List.mem_cons_self _ _))))
    · exact List.mem_filter.mpr ⟨hq, hnd⟩
  · intro q hq hnd
    refine ⟨⟨(paramsOf bn .nerNet).filter (fun q => !(noDecayB q.rel)),
      some h.ner_learning_rate, none⟩, ?_, ?_, rfl⟩
    · exact List.mem_cons_of_mem _ (List.mem_cons_of_mem _ (List.mem_cons_self _ _))
    · exact List.mem_filter.mpr ⟨hq, by simp [hnd]⟩
  · intro q hq hnd
    refine ⟨⟨(paramsOf bn .lidNet).filter (fun q => !(noDecayB q.rel)),
      some h.lid_learning_rate, none⟩, ?_, ?_, rfl⟩
    · exact List.mem_cons_of_mem _ (List.mem_cons_of_mem _ (List.mem_cons_of_mem _
        (List.mem_cons_self _ _)))
    · exact List.mem_filter.mpr ⟨hq, by simp [hnd]⟩
  · refine List.Pairwise.cons ?_ (List.Pairwise.cons ?_ (List.Pairwise.cons ?_
      (List.Pairwise.cons ?_ (List.Pairwise.cons ?_ List.Pairwise.nil))))
    · intro g hg
      simp only [List.mem_cons, List.not_mem_nil, or_false] at hg
      rcases hg with rfl | rfl | rfl | rfl
      · exact fun q h1 h2 => disjoint_filters_of_ne_module (by decide) _ _ q h1 h2
      · exact fun q h1 h2 => disjoint_filters_of_ne_module (by decide) _ _ q h1 h2
      · exact fun q h1 h2 => disjoint_filters_of_ne_module (by decide) _ _ q h1 h2
      · exact fun q h1 h2 => disjoint_filter_noDecay q h1 h2
    · intro g hg
      simp only [List.mem_cons, List.not_mem_nil, or_false] at hg
      rcases hg with rfl | rfl | rfl
      · exact fun q h1 h2 => disjoint_filters_of_ne_module (by decide) _ _ q h1 h2
      · exact fun q h1 h2 => disjoint_filters_of_ne_module (by decide) _ _ q h1 h2
      · exact fun q h1 h2 => disjoint_filter_noDecay q h1 h2
    · intro g hg
      simp only [List.mem_cons, List.not_mem_nil, or_false] at hg
      rcases hg with rfl | rfl
      · exact fun q h1 h2 => disjoint_filters_of_ne_module (by decide) _ _ q h1 h2
      · exact fun q h1 h2 => disjoint_filter_noDecay q h1 h2
    · intro g hg
      simp only [List.mem_cons, List.not_mem_nil, or_false] at hg
      rcases hg with rfl
      exact fun q h1 h2 => disjoint_filter_noDecay q h1 h2
    · intro g hg
      simp at hg

/-- C7 witness: the parameter-group guarantees at concrete hyperparameters
and concrete transformer parameter names. -/
theorem c7_param_groups_witness :
    (∃ g ∈ optimizerGroups hExample bnExample,
      (⟨Mod.baseModel, "embeddings.LayerNorm.weight".toList⟩ : Param) ∈ g.ps ∧
        effWd hExample g = 0) ∧
    (∃ g ∈ optimizerGroups hExample bnExample,
      (⟨Mod.nerNet, "0.weight".toList⟩ : Param) ∈ g.ps ∧
        effLr hExample g = hExample.ner_learning_rate) ∧
    List.Pairwise (fun g1 g2 => ∀ q, q ∈ g1.ps → q ∉ g2.ps)
      (optimizerGroups hExample bnExample) := by
  obtain ⟨h1, h2, h3, h4⟩ := c7_param_groups hExample bnExample
  exact ⟨h1 _ (by decide) (by decide), h2 _ (by decide) (by decide), h4⟩

/-- C8 (corrected), counterexample: at a real (mask=1) position whose
emissions give the reserved pad id 1 (= `len(vocab)`) the top score, the
step's Viterbi decode outputs the pad id at that real position. -/
theorem c8_counterexample :
    stepDecodePaths cexZeroCrf [[cex8Em]] = [[(1 : Fin 2)]] ∧
    (1 : Fin 2) = Fin.last 1 ∧ onesCount [true] = 1 := by decide

/-- C8 (corrected), amended claim: the Viterbi maximization ranges over all
`len(vocab) + 1` tag ids including the reserved pad id; nothing excludes
the pad class, and whenever it attains the strictly highest path score at a
real position, decode outputs it there. -/
theorem c8_amended {α : Type} [LinearOrder α] [Add α] {k : ℕ} (p : CRFParams (k + 1) α)
    (e : Fin (k + 1) → α)
    (hdom : ∀ t, t ≠ Fin.last k →
      p.startTrans t + e t + p.endTrans t <
        p.startTrans (Fin.last k) + e (Fin.last k) + p.endTrans (Fin.last k)) :
    decodeSeq p [(e, true)] = [Fin.last k] := by
  have h1 : decodeSeq p [(e, true)] =
      [argmaxF (fun t => p.startTrans t + e t + p.endTrans t)] := rfl
  rw [h1, argmaxF_dom (fun t => p.startTrans t + e t + p.endTrans t) (Fin.last k) hdom]

/-- C8 witness: the amended claim at a concrete input. -/
theorem c8_amended_witness : decodeSeq cexZeroCrf [(cexW8Em, true)] = [Fin.last 1] :=
  c8_amended cexZeroCrf cexW8Em (by decide)

/-- C9 (confirmed): `forward` is a pure function of the module parameters
and the batch: calling it leaves the module state unchanged, and a call
after any earlier call returns exactly what a fresh call on the same
arguments returns (the recurrent layer restarts from the zero initial state
inside `forward`, no hidden state is carried over between batches). -/
theorem c9_forward_stateless {E : Type} {k l : ℕ} (m : BaseLineModel E k l)
    (ids1 ids2 : List ℕ) (mask1 mask2 : List Bool) :
    (forwardMethod m ids1 mask1).2 = m ∧
    (forwardMethod ((forwardMethod m ids1 mask1).2) ids2 mask2).1 =
      (forwardMethod m ids2 mask2).1 :=
  ⟨rfl, rfl⟩

/-- C10 (confirmed): on the same batch and parameters, `validation_step`
computes exactly the same per-task losses, total loss, decoded paths and
metric values as `training_step`; the names the two steps log under are the
same nine keys with the split name `train` replaced by `val`. -/
theorem c10_train_val_equiv {E : Type} {k l : ℕ} (m : BaseLineModel E k l)
    (metricFn : MetricArgs → ℝ) (b : Batch k l) :
    (validationStep m metricFn b).nerLoss = (trainingStep m metricFn b).nerLoss ∧
    (validationStep m metricFn b).lidLoss = (trainingStep m metricFn b).lidLoss ∧
    (validationStep m metricFn b).loss = (trainingStep m metricFn b).loss ∧
    (validationStep m metricFn b).nerPath = (trainingStep m metricFn b).nerPath ∧
    (validationStep m metricFn b).lidPath = (trainingStep m metricFn b).lidPath ∧
    (trainingStep m metricFn b).logs.map Prod.fst = splitKeys "train" ∧
    (validationStep m metricFn b).logs.map Prod.fst = splitKeys "val" ∧
    (validationStep m metricFn b).logs.map Prod.snd =
      (trainingStep m metricFn b).logs.map Prod.snd :=
  ⟨rfl, rfl, rfl, rfl, rfl, rfl, rfl, rfl⟩

end Codemix
